import Mathlib

/-!
Verification of the section-extraction script `preprocess_texts.py`.

Texts are modelled as `List Char`.  Each transform of the script is
embedded as an executable Lean function, translated directly from the
Python source:

* `normalizeLigatures`   — the four `str.replace` calls on Æ/æ/Œ/œ;
* `preserve_poetry_linebreaks` — the three regex/replace passes;
* `remove_footnotes`     — the splitlines scan for footnote markers;
* `remove_unwanted_text` — the two `re.sub` passes;
* `headerPositions` / `sectionSpans` / `processText` — the
  `finditer` loop of `process_file` and the per-section pipeline.
-/

namespace Plutarch

/-- Boolean test that `p` is a prefix of the second list
(Python `str.startswith`, also the anchored-match test of a regex literal). -/
def startsWith : List Char → List Char → Bool
  | [], _ => true
  | _ :: _, [] => false
  | p :: ps, c :: cs => p == c && startsWith ps cs

/-- Boolean test that `p` occurs as a contiguous substring. -/
def containsSub (p : List Char) : List Char → Bool
  | [] => p.isEmpty
  | c :: r => startsWith p (c :: r) || containsSub p r

/-- Python `str.replace(c, r)` for a single-character pattern `c`:
every occurrence of the character is replaced by `r`. -/
def replaceChar (c : Char) (r : List Char) : List Char → List Char
  | [] => []
  | x :: xs => (if x = c then r else [x]) ++ replaceChar c r xs

/-- Character normalization of `process_file`:
`text.replace("Æ","AE").replace("æ","ae").replace("Œ","OE").replace("œ","oe")`. -/
def normalizeLigatures (s : List Char) : List Char :=
  replaceChar 'œ' "oe".data
    (replaceChar 'Œ' "OE".data
      (replaceChar 'æ' "ae".data
        (replaceChar 'Æ' "AE".data s)))

/-- The sentinel string used internally by `preserve_poetry_linebreaks`. -/
def sentinelChars : List Char := "<POETRY_LB>".data

/-- Four spaces: the indentation marking a verse line. -/
def fourSpaces : List Char := [' ', ' ', ' ', ' ']

/-- Step 1 of `preserve_poetry_linebreaks`:
`re.sub(r"(\n)( {4})", r"<POETRY_LB>\2", text)`.
Scanning left to right, every newline immediately followed by four spaces
is replaced by the sentinel `<POETRY_LB>`; the four spaces (group 2) are
kept and the scan resumes after them.  Each step consumes at least one
character, so fuel `s.length` always suffices. -/
def mpGo : Nat → List Char → List Char
  | 0, s => s
  | _ + 1, [] => []
  | f + 1, c :: r =>
    if c = '\n' ∧ startsWith fourSpaces r = true then
      sentinelChars ++ (fourSpaces ++ mpGo f (r.drop 4))
    else c :: mpGo f r

/-- First pass of `preserve_poetry_linebreaks` (sentinel marking). -/
def markPoetry (s : List Char) : List Char := mpGo s.length s

/-- Step 2 of `preserve_poetry_linebreaks`:
`re.sub(r"(?<!\n)\n(?!\n)", " ", text)`.
The Boolean argument records whether the previous character of the subject
string was a newline (the lookbehind); the lookahead inspects the head of
the remaining input.  At the start of the string the lookbehind succeeds,
so the scan starts with `false`. -/
def joinAux : Bool → List Char → List Char
  | _, [] => []
  | b, c :: r =>
    if c = '\n' then
      (if b ∨ r.head? = some '\n' then '\n' else ' ') :: joinAux true r
    else c :: joinAux false r

/-- Step 3 of `preserve_poetry_linebreaks`:
`text.replace("<POETRY_LB>", "\n")` — every leftmost occurrence of the
11-character sentinel becomes one newline (`r.drop 10` skips its
remaining 10 characters); fuel `s.length` always suffices. -/
def rpGo : Nat → List Char → List Char
  | 0, s => s
  | _ + 1, [] => []
  | f + 1, c :: r =>
    if startsWith sentinelChars (c :: r) = true then '\n' :: rpGo f (r.drop 10)
    else c :: rpGo f r

/-- Third pass of `preserve_poetry_linebreaks` (sentinel restoration). -/
def restorePoetry (s : List Char) : List Char := rpGo s.length s

/-- `preserve_poetry_linebreaks` of the script: the three passes in order. -/
def preserve_poetry_linebreaks (text : List Char) : List Char :=
  restorePoetry (joinAux false (markPoetry text))

/-- The input does not contain the internal sentinel as a substring. -/
def noSentinel (s : List Char) : Prop := containsSub sentinelChars s = false

/-- A newline at the head of `r` survives the joining pass by lookahead:
the next character is a newline that is itself not a verse-line break. -/
def keepNL (r : List Char) : Bool :=
  r.head? == some '\n' && !(startsWith ('\n' :: fourSpaces) r)

/-- Modelled from the spec's wording (as amended): the per-newline rule of
the poetry-preserving line join.  A newline followed by four spaces is
preserved; any other newline is preserved exactly when the previous
character was a newline or the next character is a newline that is not a
verse-line break; otherwise it becomes a single space.  All other
characters are unchanged. -/
def refAux : Bool → List Char → List Char
  | _, [] => []
  | b, c :: r =>
    if c = '\n' then
      if startsWith fourSpaces r then '\n' :: refAux false r
      else (if b ∨ keepNL r = true then '\n' else ' ') :: refAux true r
    else c :: refAux false r

/-- Reference (spec-worded) poetry-preserving line join. -/
def poetryRef (s : List Char) : List Char := refAux false s

/-- Python `"\n".join(lines)`. -/
def joinNL : List (List Char) → List Char
  | [] => []
  | [l] => l
  | l :: ls => l ++ '\n' :: joinNL ls

/-- The line-boundary characters of Python `str.splitlines()`:
line feed, carriage return, vertical tab, form feed, the file/group/record
separators, next line, line separator and paragraph separator.  (The pair
carriage return + line feed counts as a single boundary; see `slGo`.) -/
def isLineBoundary (c : Char) : Bool :=
  c == '\n' || c == '\r' || c == '\x0b' || c == '\x0c' || c == '\x1c' ||
  c == '\x1d' || c == '\x1e' || c == '\x85' || c == '\u2028' || c == '\u2029'

/-- Fuel-driven Python `str.splitlines()`: an empty string gives no lines;
otherwise one line is the run up to the next boundary character, a
carriage return directly followed by a line feed is consumed as a single
boundary, and a trailing boundary does not produce a final empty line.
Each step consumes at least one character, so fuel `s.length` always
suffices. -/
def slGo : Nat → List Char → List (List Char)
  | 0, _ => []
  | _ + 1, [] => []
  | f + 1, c :: s' =>
    if (c :: s').dropWhile (fun x => !isLineBoundary x) = [] then
      [(c :: s').takeWhile (fun x => !isLineBoundary x)]
    else if ((c :: s').dropWhile (fun x => !isLineBoundary x)).head? = some '\r' ∧
        ((c :: s').dropWhile (fun x => !isLineBoundary x)).tail.head? = some '\n' then
      ((c :: s').takeWhile (fun x => !isLineBoundary x)) ::
        slGo f (((c :: s').dropWhile (fun x => !isLineBoundary x)).tail.tail)
    else
      ((c :: s').takeWhile (fun x => !isLineBoundary x)) ::
        slGo f (((c :: s').dropWhile (fun x => !isLineBoundary x)).tail)

/-- Python `str.splitlines()`. -/
def pySplitlines (s : List Char) : List (List Char) := slGo s.length s

/-- Python `str.lstrip()`. -/
def pyLstrip (s : List Char) : List Char := s.dropWhile Char.isWhitespace

/-- Python `str.rstrip()`. -/
def pyRstrip (s : List Char) : List Char := (s.reverse.dropWhile Char.isWhitespace).reverse

/-- Python `str.strip()`. -/
def pyStrip (s : List Char) : List Char := pyRstrip (pyLstrip s)

/-- Python `str.lower()` (ASCII letters suffice for the footnote markers). -/
def lowerChars (s : List Char) : List Char := s.map Char.toLower

/-- The per-line test of `remove_footnotes`:
`line.strip().lower().startswith("footnotes:")` or
`line.strip().lower().startswith("[footnote ")`. -/
def isFootnoteLine (l : List Char) : Bool :=
  startsWith "footnotes:".data (lowerChars (pyStrip l)) ||
  startsWith "[footnote ".data (lowerChars (pyStrip l))

/-- `remove_footnotes` of the script: scan the lines in order; at the first
line passing `isFootnoteLine`, return the join of the earlier lines,
right-stripped; otherwise return the text unchanged. -/
def remove_footnotes (text : List Char) : List Char :=
  match (pySplitlines text).findIdx? isFootnoteLine with
  | some i => pyRstrip (joinNL ((pySplitlines text).take i))
  | none => text

/-- The literal `PLUTARCH'S LIVES` (16 characters). -/
def plLit : List Char := "PLUTARCH\x27S LIVES".data

/-- The `\([^)]+\)` part of the cross-reference regex: an opening
parenthesis, a nonempty run of non-`)` characters, a closing parenthesis.
Returns the remainder after the match.  (The first character of
`dropWhile (· != ')')`, when present, is necessarily `)`, which is the
`\)` closing the match; greedy `[^)]+` with backtracking matches exactly
the maximal nonempty run, since any shorter run is followed by a
non-`)` character.) -/
def parenTail : List Char → Option (List Char)
  | [] => none
  | c :: r2 =>
    if c = '(' ∧ (r2.takeWhile (fun x => x != ')')) ≠ [] ∧
        (r2.dropWhile (fun x => x != ')')) ≠ [] then
      some ((r2.dropWhile (fun x => x != ')')).tail)
    else none

/-- The cross-reference regex after `PLUTARCH'S LIVES` with `.?` matching
no character: a space and then the parenthesized suffix. -/
def plAlt2 (r : List Char) : Option (List Char) :=
  if r.head? = some ' ' then parenTail r.tail else none

/-- The cross-reference regex after the literal `PLUTARCH'S LIVES`:
greedy `.?` first tries to consume one non-newline character (`r.head?`)
before the literal space and the parenthesized suffix; if that whole
alternative fails it backtracks to consuming none (`plAlt2`). -/
def plTail (r : List Char) : Option (List Char) :=
  if r ≠ [] ∧ r.head? ≠ some '\n' ∧ r.tail.head? = some ' ' ∧
      (parenTail r.tail.tail).isSome then
    parenTail r.tail.tail
  else plAlt2 r

/-- Fuel-driven scan of `re.sub(r"\[\d+\]", "", text)`: at a `[`, if a
nonempty digit run followed by `]` comes next (the head of
`dropWhile Char.isDigit`, when present and equal to `]`), the whole
marker is dropped and the scan resumes after the `]`; otherwise the
character is kept.  Each step consumes at least one character, so fuel
`s.length` always suffices. -/
def rbGo : Nat → List Char → List Char
  | 0, s => s
  | _ + 1, [] => []
  | f + 1, c :: rest =>
    if c = '[' ∧ (rest.takeWhile Char.isDigit) ≠ [] ∧
        (rest.dropWhile Char.isDigit).head? = some ']' then
      rbGo f ((rest.dropWhile Char.isDigit).tail)
    else c :: rbGo f rest

/-- `re.sub(r"\[\d+\]", "", text)`. -/
def removeBrackets (s : List Char) : List Char := rbGo s.length s

/-- Fuel-driven scan of `re.sub(r"PLUTARCH'S LIVES.? \([^)]+\)", "", text)`:
at each position where the 16-character literal matches, `plTail` tries
the rest of the pattern on the remainder (`rest.drop 15`); on success the
whole match is dropped and the scan resumes after it. -/
def plGo : Nat → List Char → List Char
  | 0, s => s
  | _ + 1, [] => []
  | f + 1, c :: rest =>
    if startsWith plLit (c :: rest) = true ∧ (plTail (rest.drop 15)).isSome then
      plGo f ((plTail (rest.drop 15)).getD [])
    else c :: plGo f rest

/-- `re.sub(r"PLUTARCH'S LIVES.? \([^)]+\)", "", text)`. -/
def removePlutarch (s : List Char) : List Char := plGo s.length s

/-- `remove_unwanted_text` of the script: the two substitutions in order. -/
def remove_unwanted_text (s : List Char) : List Char :=
  removePlutarch (removeBrackets s)

/-- The line beginning at offset `p`: characters up to the next newline. -/
def lineAt (text : List Char) (p : Nat) : List Char :=
  (text.drop p).takeWhile (fun c => c != '\n')

/-- Offset `p` is a line start (`^` in `re.MULTILINE`): the start of the
text, or a position directly after a newline. -/
def isLineStart (text : List Char) (p : Nat) : Bool :=
  p == 0 || text.getD (p - 1) 'x' == '\n'

/-- The character class `[A-Z .]` of the section-header regex. -/
def upperSpaceDot (c : Char) : Bool := ('A' ≤ c && c ≤ 'Z') || c == ' ' || c == '.'

/-- A full line matches `^(LIFE OF [A-Z .]+|COMPARISON OF[^\n]*)$`:
either `LIFE OF ` followed by a nonempty run of `[A-Z .]` characters
reaching the end of the line, or any line starting with `COMPARISON OF`. -/
def isHeaderLine (l : List Char) : Bool :=
  (startsWith "LIFE OF ".data l && !(l.drop 8).isEmpty && (l.drop 8).all upperSpaceDot) ||
  startsWith "COMPARISON OF".data l

/-- Start offsets of the matches of the section-header regex, in document
order (`section_pattern.finditer(original_text)`). -/
def headerPositions (text : List Char) : List Nat :=
  (List.range text.length).filter (fun p => isLineStart text p && isHeaderLine (lineAt text p))

/-- The `(start, end)` spans of the sections: each match's start paired
with the next match's start, or with the text length for the last match. -/
def sectionSpans (text : List Char) : List (Nat × Nat) :=
  (headerPositions text).zip ((headerPositions text).drop 1 ++ [text.length])

/-- `match.group(1).strip().replace(" ", "_").replace(".", "")`. -/
def slugTitle (l : List Char) : List Char :=
  ((pyStrip l).map (fun c => if c = ' ' then '_' else c)).filter (fun c => c != '.')

/-- Python `f"{n:02d}"` for a positive index. -/
def pad2 (n : Nat) : List Char :=
  if n < 10 then '0' :: Nat.toDigits 10 n else Nat.toDigits 10 n

/-- `f"{file_path.stem}_{i+1:02d}_{section_title}.txt"` where the section
title is the header line starting at offset `start`. -/
def sectionName (stem text : List Char) (i : Nat) (start : Nat) : List Char :=
  stem ++ '_' :: (pad2 (i + 1) ++ '_' :: (slugTitle (lineAt text start) ++ ".txt".data))

/-- The cleanup pipeline applied to the section with span `sp`:
slice, `strip`, poetry-preserving line join, footnote truncation, inline
unwanted-pattern removal — in the order of `process_file`. -/
def cleanSection (text : List Char) (sp : Nat × Nat) : List Char :=
  remove_unwanted_text (remove_footnotes (preserve_poetry_linebreaks
    (pyStrip ((text.drop sp.1).take (sp.2 - sp.1)))))

/-- The per-document loop of `process_file` on already-normalized text:
one `(filename, contents)` pair per discovered section. -/
def processText (stem text : List Char) : List (List Char × List Char) :=
  (sectionSpans text).enum.map (fun p => (sectionName stem text p.1 p.2.1, cleanSection text p.2))

/-- The filenames emitted for one document. -/
def outputNames (stem text : List Char) : List (List Char) :=
  (sectionSpans text).enum.map (fun p => sectionName stem text p.1 p.2.1)

/-- A whole document: ligature normalization, then section processing. -/
def processDocument (stem raw : List Char) : List (List Char × List Char) :=
  processText stem (normalizeLigatures raw)

/-- Modelled from the spec's wording: a header line is either `LIFE OF `
followed by a nonempty string of uppercase letters, spaces and periods,
or a line starting with `COMPARISON OF`. -/
def headerLineSpec (l : List Char) : Prop :=
  (∃ t, l = "LIFE OF ".data ++ t ∧ t ≠ [] ∧
    ∀ c ∈ t, ('A' ≤ c ∧ c ≤ 'Z') ∨ c = ' ' ∨ c = '.') ∨
  (∃ t, l = "COMPARISON OF".data ++ t)

theorem startsWith_iff_append (p l : List Char) :
    startsWith p l = true ↔ ∃ t, l = p ++ t := by
  induction p generalizing l with
  | nil => simp [startsWith]
  | cons q ps ih =>
    cases l with
    | nil => simp [startsWith]
    | cons c cs =>
      simp only [startsWith, Bool.and_eq_true, beq_iff_eq, ih, List.cons_append,
        List.cons.injEq]
      constructor
      · rintro ⟨rfl, t, rfl⟩; exact ⟨t, rfl, rfl⟩
      · rintro ⟨t, rfl, rfl⟩; exact ⟨rfl, t, rfl⟩

theorem mem_replaceChar {x : Char} {c : Char} {r s : List Char}
    (h : x ∈ replaceChar c r s) : x ∈ r ∨ (x ∈ s ∧ x ≠ c) := by
  induction s with
  | nil => simp [replaceChar] at h
  | cons y ys ih =>
    simp only [replaceChar, List.mem_append] at h
    rcases h with h | h
    · by_cases hy : y = c
      · simp [hy] at h; exact Or.inl h
      · simp [hy] at h; subst h; exact Or.inr ⟨List.mem_cons_self _ _, hy⟩
    · rcases ih h with h' | ⟨hm, hne⟩
      · exact Or.inl h'
      · exact Or.inr ⟨List.mem_cons_of_mem _ hm, hne⟩

theorem replaceChar_of_not_mem {c : Char} {r s : List Char}
    (h : c ∉ s) : replaceChar c r s = s := by
  induction s with
  | nil => rfl
  | cons y ys ih =>
    simp only [List.mem_cons, not_or] at h
    simp [replaceChar, Ne.symm h.1, ih h.2]

theorem mem_normalizeLigatures {x : Char} {s : List Char}
    (h : x ∈ normalizeLigatures s) :
    x ≠ 'Æ' ∧ x ≠ 'æ' ∧ x ≠ 'Œ' ∧ x ≠ 'œ' := by
  unfold normalizeLigatures at h
  have h1 := mem_replaceChar h
  rcases h1 with h1 | ⟨h1, hoe2⟩
  · simp only [String.data] at h1
    -- x ∈ "oe" : explicit character facts
    fin_cases h1 <;> refine ⟨by decide, by decide, by decide, by decide⟩
  · have h2 := mem_replaceChar h1
    rcases h2 with h2 | ⟨h2, hOE2⟩
    · fin_cases h2 <;> refine ⟨by decide, by decide, by decide, by decide⟩
    · have h3 := mem_replaceChar h2
      rcases h3 with h3 | ⟨h3, hae2⟩
      · fin_cases h3 <;> refine ⟨by decide, by decide, by decide, by decide⟩
      · have h4 := mem_replaceChar h3
        rcases h4 with h4 | ⟨h4, hAE2⟩
        · fin_cases h4 <;> refine ⟨by decide, by decide, by decide, by decide⟩
        · exact ⟨hAE2, hae2, hOE2, hoe2⟩

theorem normalizeLigatures_of_no_ligatures {X : List Char}
    (hA : 'Æ' ∉ X) (hB : 'æ' ∉ X) (hC : 'Œ' ∉ X) (hD : 'œ' ∉ X) :
    normalizeLigatures X = X := by
  unfold normalizeLigatures
  rw [replaceChar_of_not_mem hA, replaceChar_of_not_mem hB,
    replaceChar_of_not_mem hC, replaceChar_of_not_mem hD]

/-- C9: character normalization (replacing the AE and OE ligature
characters, upper- and lowercase, with their two-letter Latin equivalents)
is idempotent: applying it twice equals applying it once. -/
theorem claim9_normalize_idempotent (s : List Char) :
    normalizeLigatures (normalizeLigatures s) = normalizeLigatures s :=
  normalizeLigatures_of_no_ligatures
    (fun hm => (mem_normalizeLigatures hm).1 rfl)
    (fun hm => (mem_normalizeLigatures hm).2.1 rfl)
    (fun hm => (mem_normalizeLigatures hm).2.2.1 rfl)
    (fun hm => (mem_normalizeLigatures hm).2.2.2 rfl)

theorem mpGo_congr : ∀ (f g : Nat) (s : List Char),
    s.length ≤ f → s.length ≤ g → mpGo f s = mpGo g s := by
  intro f
  induction f with
  | zero =>
    intro g s hf _
    have : s = [] := List.length_eq_zero.mp (Nat.le_zero.mp hf)
    subst this
    cases g <;> rfl
  | succ f ih =>
    intro g s hf hg
    cases g with
    | zero =>
      have : s = [] := List.length_eq_zero.mp (Nat.le_zero.mp hg)
      subst this; rfl
    | succ g =>
      cases s with
      | nil => rfl
      | cons c r =>
        simp only [List.length_cons, Nat.add_le_add_iff_right] at hf hg
        by_cases h : c = '\n' ∧ startsWith fourSpaces r = true
        · have hd : (r.drop 4).length ≤ r.length := by
            rw [List.length_drop]; omega
          simp only [mpGo, if_pos h]
          exact congrArg _ (congrArg _ (ih g (r.drop 4) (le_trans hd hf) (le_trans hd hg)))
        · simp only [mpGo, if_neg h]
          exact congrArg _ (ih g r hf hg)

theorem mpGo_cons (f : Nat) (c : Char) (r : List Char) :
    mpGo (f + 1) (c :: r) =
      if c = '\n' ∧ startsWith fourSpaces r = true then
        sentinelChars ++ (fourSpaces ++ mpGo f (r.drop 4))
      else c :: mpGo f r := rfl

theorem markPoetry_nil : markPoetry [] = [] := rfl

theorem markPoetry_cons_ne {c : Char} (r : List Char) (hc : c ≠ '\n') :
    markPoetry (c :: r) = c :: markPoetry r := by
  unfold markPoetry
  rw [List.length_cons, mpGo_cons, if_neg]
  intro h
  exact hc h.1

theorem markPoetry_nl (r : List Char) (h4 : startsWith fourSpaces r = false) :
    markPoetry ('\n' :: r) = '\n' :: markPoetry r := by
  unfold markPoetry
  rw [List.length_cons, mpGo_cons, if_neg]
  intro h
  rw [h4] at h
  exact Bool.false_ne_true h.2

theorem markPoetry_poetry (r : List Char) :
    markPoetry ('\n' :: (fourSpaces ++ r)) =
      sentinelChars ++ (fourSpaces ++ markPoetry r) := by
  unfold markPoetry
  have hsw : startsWith fourSpaces (fourSpaces ++ r) = true :=
    (startsWith_iff_append _ _).mpr ⟨r, rfl⟩
  rw [List.length_cons, mpGo_cons, if_pos ⟨rfl, hsw⟩]
  have hdrop : List.drop 4 (fourSpaces ++ r) = r := by simp [fourSpaces]
  rw [hdrop]
  have hlen : r.length ≤ (fourSpaces ++ r).length := by
    rw [List.length_append]; omega
  rw [mpGo_congr (fourSpaces ++ r).length r.length r hlen le_rfl]

theorem rpGo_congr : ∀ (f g : Nat) (s : List Char),
    s.length ≤ f → s.length ≤ g → rpGo f s = rpGo g s := by
  intro f
  induction f with
  | zero =>
    intro g s hf _
    have : s = [] := List.length_eq_zero.mp (Nat.le_zero.mp hf)
    subst this
    cases g <;> rfl
  | succ f ih =>
    intro g s hf hg
    cases g with
    | zero =>
      have : s = [] := List.length_eq_zero.mp (Nat.le_zero.mp hg)
      subst this; rfl
    | succ g =>
      cases s with
      | nil => rfl
      | cons c r =>
        simp only [List.length_cons, Nat.add_le_add_iff_right] at hf hg
        by_cases h : startsWith sentinelChars (c :: r) = true
        · have hd : (r.drop 10).length ≤ r.length := by
            rw [List.length_drop]; omega
          simp only [rpGo, if_pos h]
          exact congrArg _ (ih g (r.drop 10) (le_trans hd hf) (le_trans hd hg))
        · simp only [rpGo, if_neg h]
          exact congrArg _ (ih g r hf hg)

theorem rpGo_cons (f : Nat) (c : Char) (r : List Char) :
    rpGo (f + 1) (c :: r) =
      if startsWith sentinelChars (c :: r) = true then '\n' :: rpGo f (r.drop 10)
      else c :: rpGo f r := rfl

theorem restorePoetry_nil : restorePoetry [] = [] := rfl

theorem restorePoetry_cons (c : Char) (r : List Char)
    (h : startsWith sentinelChars (c :: r) = false) :
    restorePoetry (c :: r) = c :: restorePoetry r := by
  unfold restorePoetry
  rw [List.length_cons, rpGo_cons, if_neg]
  rw [h]
  exact Bool.false_ne_true

theorem restorePoetry_sentinel (t : List Char) :
    restorePoetry (sentinelChars ++ t) = '\n' :: restorePoetry t := by
  unfold restorePoetry
  have hsw : startsWith sentinelChars (sentinelChars ++ t) = true :=
    (startsWith_iff_append _ _).mpr ⟨t, rfl⟩
  have hshape : sentinelChars ++ t = '<' :: ("POETRY_LB>".data ++ t) := rfl
  rw [hshape] at hsw ⊢
  rw [List.length_cons, rpGo_cons, if_pos hsw]
  have hdrop : List.drop 10 ("POETRY_LB>".data ++ t) = t := by
    show List.drop 10 (['P','O','E','T','R','Y','_','L','B','>'] ++ t) = t
    simp
  rw [hdrop]
  have hlen : t.length ≤ ("POETRY_LB>".data ++ t).length := by
    rw [List.length_append]; omega
  rw [rpGo_congr ("POETRY_LB>".data ++ t).length t.length t hlen le_rfl]

theorem startsWith_cons (p c : Char) (ps cs : List Char) :
    startsWith (p :: ps) (c :: cs) = (p == c && startsWith ps cs) := rfl

theorem startsWith_sentinel_false {c : Char} (r : List Char) (hc : c ≠ '<') :
    startsWith sentinelChars (c :: r) = false := by
  show startsWith ('<' :: "POETRY_LB>".data) (c :: r) = false
  rw [startsWith_cons, beq_eq_false_iff_ne.mpr (Ne.symm hc), Bool.false_and]

theorem restorePoetry_append_no_lt :
    ∀ (a : List Char), (∀ c ∈ a, c ≠ '<') → ∀ (t : List Char),
      restorePoetry (a ++ t) = a ++ restorePoetry t := by
  intro a
  induction a with
  | nil => intro _ t; simp
  | cons x xs ih =>
    intro ha t
    have hx : x ≠ '<' := ha x (List.mem_cons_self x xs)
    rw [List.cons_append, restorePoetry_cons x (xs ++ t) (startsWith_sentinel_false _ hx),
      ih (fun c hc => ha c (List.mem_cons_of_mem x hc)) t, List.cons_append]

theorem joinAux_append_no_newline :
    ∀ (a : List Char), (∀ c ∈ a, c ≠ '\n') → ∀ (b : Bool) (t : List Char),
      joinAux b (a ++ t) = a ++ joinAux (if a.isEmpty then b else false) t := by
  intro a
  induction a with
  | nil => intro _ b t; simp
  | cons x xs ih =>
    intro ha b t
    have hx : x ≠ '\n' := ha x (List.mem_cons_self x xs)
    have ih' := ih (fun c hc => ha c (List.mem_cons_of_mem x hc)) false t
    simp only [List.cons_append, joinAux, if_neg hx, List.append_eq]
    rw [ih']
    simp [List.isEmpty_cons, ite_self]

theorem joinAux_cons (b : Bool) (c : Char) (r : List Char) :
    joinAux b (c :: r) =
      if c = '\n' then
        (if b ∨ r.head? = some '\n' then '\n' else ' ') :: joinAux true r
      else c :: joinAux false r := rfl

theorem refAux_cons (b : Bool) (c : Char) (r : List Char) :
    refAux b (c :: r) =
      if c = '\n' then
        if startsWith fourSpaces r then '\n' :: refAux false r
        else (if b ∨ keepNL r = true then '\n' else ' ') :: refAux true r
      else c :: refAux false r := rfl

theorem containsSub_cons (p : List Char) (c : Char) (r : List Char) :
    containsSub p (c :: r) = (startsWith p (c :: r) || containsSub p r) := rfl

theorem noSentinel_cons {c : Char} {r : List Char} (h : noSentinel (c :: r)) :
    noSentinel r := by
  unfold noSentinel at h ⊢
  rw [containsSub_cons, Bool.or_eq_false_iff] at h
  exact h.2

theorem noSentinel_head {c : Char} {r : List Char} (h : noSentinel (c :: r)) :
    startsWith sentinelChars (c :: r) = false := by
  unfold noSentinel at h
  rw [containsSub_cons, Bool.or_eq_false_iff] at h
  exact h.1

theorem noSentinel_append_right {x y : List Char} (h : noSentinel (x ++ y)) :
    noSentinel y := by
  induction x with
  | nil => exact h
  | cons c cs ih =>
    rw [List.cons_append] at h
    exact ih (noSentinel_cons h)

theorem markPoetry_head (r : List Char) :
    ((markPoetry r).head? = some '\n') ↔ keepNL r = true := by
  cases r with
  | nil => simp [markPoetry_nil, keepNL]
  | cons c r' =>
    by_cases hc : c = '\n'
    · subst hc
      by_cases h4 : startsWith fourSpaces r' = true
      · obtain ⟨t, rfl⟩ := (startsWith_iff_append _ _).mp h4
        rw [markPoetry_poetry]
        constructor
        · intro hh
          exact absurd hh (by simp [sentinelChars])
        · intro hk
          exfalso
          simp only [keepNL, startsWith_cons, h4, Bool.and_eq_true, Bool.not_eq_true'] at hk
          simp at hk
      · rw [markPoetry_nl r' (Bool.eq_false_iff.mpr h4)]
        simp [keepNL, startsWith_cons, h4]
    · rw [markPoetry_cons_ne r' hc]
      simp [keepNL, hc]

theorem startsWith_joinAux_markPoetry :
    ∀ (p : List Char), (∀ c ∈ p, c ≠ '\n' ∧ c ≠ ' ' ∧ c ≠ '<') →
    ∀ (b : Bool) (r : List Char),
      startsWith p (joinAux b (markPoetry r)) = startsWith p r := by
  intro p
  induction p with
  | nil => intro _ b r; rfl
  | cons q ps ih =>
    intro hp b r
    have hq := hp q (List.mem_cons_self q ps)
    have hps : ∀ c ∈ ps, c ≠ '\n' ∧ c ≠ ' ' ∧ c ≠ '<' :=
      fun c hc => hp c (List.mem_cons_of_mem q hc)
    cases r with
    | nil => rfl
    | cons c r' =>
      by_cases hc : c = '\n'
      · subst hc
        by_cases h4 : startsWith fourSpaces r' = true
        · obtain ⟨t, rfl⟩ := (startsWith_iff_append _ _).mp h4
          rw [markPoetry_poetry]
          have hshape : sentinelChars ++ (fourSpaces ++ markPoetry t) =
              '<' :: ("POETRY_LB>".data ++ (fourSpaces ++ markPoetry t)) := rfl
          rw [hshape, joinAux_cons, if_neg (by decide : ¬('<' : Char) = '\n')]
          rw [startsWith_cons, startsWith_cons,
            beq_eq_false_iff_ne.mpr hq.2.2,
            beq_eq_false_iff_ne.mpr hq.1, Bool.false_and, Bool.false_and]
        · rw [markPoetry_nl r' (Bool.eq_false_iff.mpr h4), joinAux_cons, if_pos rfl]
          rw [startsWith_cons, startsWith_cons,
            beq_eq_false_iff_ne.mpr hq.1, Bool.false_and]
          have hfe : (q == (if b ∨ (markPoetry r').head? = some '\n' then '\n' else ' ')) =
              false := by
            by_cases hb : b ∨ (markPoetry r').head? = some '\n'
            · rw [if_pos hb]; exact beq_eq_false_iff_ne.mpr hq.1
            · rw [if_neg hb]; exact beq_eq_false_iff_ne.mpr hq.2.1
          rw [hfe, Bool.false_and]
      · rw [markPoetry_cons_ne r' hc, joinAux_cons, if_neg hc]
        rw [startsWith_cons, startsWith_cons, ih hps false r']

theorem refAux_append_no_newline :
    ∀ (a : List Char), (∀ c ∈ a, c ≠ '\n') → ∀ (b : Bool) (t : List Char),
      refAux b (a ++ t) = a ++ refAux (if a.isEmpty then b else false) t := by
  intro a
  induction a with
  | nil => intro _ b t; simp
  | cons x xs ih =>
    intro ha b t
    have hx : x ≠ '\n' := ha x (List.mem_cons_self x xs)
    have ih' := ih (fun c hc => ha c (List.mem_cons_of_mem x hc)) false t
    rw [List.cons_append, refAux_cons, if_neg hx, ih']
    simp [List.isEmpty_cons, ite_self]

theorem poetry_core : ∀ (n : Nat) (s : List Char), s.length ≤ n → noSentinel s →
    ∀ (b : Bool), restorePoetry (joinAux b (markPoetry s)) = refAux b s := by
  intro n
  induction n with
  | zero =>
    intro s hs _ b
    have : s = [] := List.length_eq_zero.mp (Nat.le_zero.mp hs)
    subst this
    rfl
  | succ n ih =>
    intro s hs hn b
    cases s with
    | nil => rfl
    | cons c r =>
      by_cases hc : c = '\n'
      · subst hc
        by_cases h4 : startsWith fourSpaces r = true
        · obtain ⟨t, rfl⟩ := (startsWith_iff_append _ _).mp h4
          rw [markPoetry_poetry, ← List.append_assoc]
          rw [joinAux_append_no_newline (sentinelChars ++ fourSpaces) (by decide) b
            (markPoetry t)]
          rw [List.append_assoc, restorePoetry_sentinel,
            restorePoetry_append_no_lt fourSpaces (by decide)]
          have ht : t.length ≤ n := by
            simp [fourSpaces] at hs; omega
          have hnt : noSentinel t := noSentinel_append_right (noSentinel_cons hn)
          rw [ih t ht hnt _]
          rw [refAux_cons, if_pos rfl, if_pos h4]
          rw [refAux_append_no_newline fourSpaces (by decide) false t]
          have he1 : (if (sentinelChars ++ fourSpaces).isEmpty then b else false) = false := by
            simp [sentinelChars, fourSpaces]
          rw [he1]
          have he2 : (if fourSpaces.isEmpty then (false : Bool) else false) = false := by
            simp [fourSpaces]
          rw [he2]
        · have h4' : startsWith fourSpaces r = false := Bool.eq_false_iff.mpr h4
          rw [markPoetry_nl r h4', joinAux_cons, if_pos rfl]
          have hiff : (b ∨ (markPoetry r).head? = some '\n') ↔ (b ∨ keepNL r = true) :=
            or_congr Iff.rfl (markPoetry_head r)
          rw [if_congr hiff rfl rfl]
          have hch : (if b ∨ keepNL r = true then '\n' else ' ') ≠ '<' := by
            by_cases hb : b ∨ keepNL r = true
            · rw [if_pos hb]; decide
            · rw [if_neg hb]; decide
          rw [restorePoetry_cons _ _ (startsWith_sentinel_false _ hch)]
          have hr : r.length ≤ n := by simp at hs; omega
          rw [ih r hr (noSentinel_cons hn) true]
          rw [refAux_cons, if_pos rfl, if_neg h4]
      · rw [markPoetry_cons_ne r hc, joinAux_cons, if_neg hc]
        have hr : r.length ≤ n := by simp at hs; omega
        by_cases hlt : c = '<'
        · subst hlt
          have h1 : startsWith "POETRY_LB>".data (joinAux false (markPoetry r)) =
              startsWith "POETRY_LB>".data r :=
            startsWith_joinAux_markPoetry _ (by decide) false r
          have h2 : startsWith sentinelChars ('<' :: r) = false := noSentinel_head hn
          have h3 : startsWith "POETRY_LB>".data r = false := by
            have hs2 : startsWith sentinelChars ('<' :: r) =
                (('<' == '<') && startsWith "POETRY_LB>".data r) := rfl
            rw [hs2] at h2
            simpa using h2
          have hsw : startsWith sentinelChars ('<' :: joinAux false (markPoetry r)) = false := by
            have hs3 : startsWith sentinelChars ('<' :: joinAux false (markPoetry r)) =
                (('<' == '<') && startsWith "POETRY_LB>".data (joinAux false (markPoetry r))) :=
              rfl
            rw [hs3, h1, h3, Bool.and_false]
          rw [restorePoetry_cons _ _ hsw]
          rw [ih r hr (noSentinel_cons hn) false]
          rw [refAux_cons, if_neg hc]
        · rw [restorePoetry_cons _ _ (startsWith_sentinel_false _ hlt)]
          rw [ih r hr (noSentinel_cons hn) false]
          rw [refAux_cons, if_neg hc]

theorem poetry_eq_poetryRef (s : List Char) (h : noSentinel s) :
    preserve_poetry_linebreaks s = poetryRef s :=
  poetry_core s.length s le_rfl h false

theorem refAux_no_newline (a : List Char) (ha : ∀ c ∈ a, c ≠ '\n') (b : Bool) :
    refAux b a = a := by
  have h := refAux_append_no_newline a ha b []
  have h0 : refAux false ([] : List Char) = [] := rfl
  cases a with
  | nil => rfl
  | cons x xs => simpa [h0] using h

theorem startsWith_spaces_append_nl :
    ∀ (p l t : List Char), (∀ c ∈ p, c = ' ') → (∀ c ∈ l, c ≠ '\n') →
      startsWith p l = false → startsWith p (l ++ '\n' :: t) = false := by
  intro p
  induction p with
  | nil =>
    intro l t _ _ h
    exact absurd h (by simp [startsWith])
  | cons q ps ih =>
    intro l t hp hl h
    cases l with
    | nil =>
      have hq : q = ' ' := hp q (List.mem_cons_self q ps)
      subst hq
      rw [List.nil_append, startsWith_cons,
        beq_eq_false_iff_ne.mpr (by decide : (' ' : Char) ≠ '\n'), Bool.false_and]
    | cons c l' =>
      rw [List.cons_append, startsWith_cons]
      rw [startsWith_cons] at h
      cases hqc : (q == c) with
      | false => rw [Bool.false_and]
      | true =>
        rw [hqc, Bool.true_and] at h
        rw [Bool.true_and]
        exact ih l' t (fun x hx => hp x (List.mem_cons_of_mem q hx))
          (fun x hx => hl x (List.mem_cons_of_mem c hx)) h

theorem keepNL_append_no_newline (l t : List Char) (hne : l ≠ [])
    (hl : ∀ c ∈ l, c ≠ '\n') : keepNL (l ++ t) = false := by
  cases l with
  | nil => exact absurd rfl hne
  | cons c l' =>
    have hc : c ≠ '\n' := hl c (List.mem_cons_self c l')
    simp [keepNL, List.cons_append, hc]

/-- C3 counterexample: the claim states that blank-line paragraph
separators (consecutive newlines) are left unchanged, but on
`"a\n\n    b"` the sentinel pass consumes the second newline of the pair,
so the joining pass sees the first newline as isolated and turns it into
a space: the output is `"a \n    b"`, not the unchanged input the claim
predicts. -/
theorem claim3_counterexample :
    preserve_poetry_linebreaks "a\n\n    b".data = "a \n    b".data ∧
    "a \n    b".data ≠ "a\n\n    b".data := by
  exact ⟨rfl, by decide⟩

/-- C3 (as amended): for every input text not containing the literal
sentinel `<POETRY_LB>`, the poetry-preserving line join equals the
per-newline rule `poetryRef`: a newline followed by four spaces is
preserved; any other newline is preserved exactly when the previous
character is a newline, or the next character is a newline that is not
itself a verse-line break; every remaining newline becomes one space;
all other characters are unchanged.  (In particular a newline directly
preceding a verse-line break counts as isolated and becomes a space,
the one behaviour the original claim misses.) -/
theorem claim3_poetry_line_join (s : List Char) (h : noSentinel s) :
    preserve_poetry_linebreaks s = poetryRef s :=
  poetry_eq_poetryRef s h

/-- Witness for C3 at the concrete input `"ab\ncd"`. -/
theorem claim3_poetry_line_join_witness :
    noSentinel "ab\ncd".data ∧
    preserve_poetry_linebreaks "ab\ncd".data = poetryRef "ab\ncd".data :=
  ⟨rfl, claim3_poetry_line_join "ab\ncd".data rfl⟩

/-- C4 counterexample: the input `"x<POETRY_LB>y\nb\nc"` is a single
paragraph on three physical lines, none indented by four spaces, yet the
transform does not output the three lines joined with single spaces
(`"x<POETRY_LB>y b c"`): the literal sentinel in the first line is turned
into a newline. -/
theorem claim4_counterexample :
    preserve_poetry_linebreaks "x<POETRY_LB>y\nb\nc".data = "x\ny b c".data ∧
    "x\ny b c".data ≠ "x<POETRY_LB>y b c".data := by
  exact ⟨rfl, by decide⟩

/-- C4 (as amended with the proviso that the text does not contain the
literal sentinel): (1) a single paragraph split across 3 physical
nonempty lines, none starting with four spaces, is output as the three
lines joined with single spaces, with no internal line break; (2) a line
indented with four spaces immediately following a non-indented line
retains its leading line break in the output. -/
theorem claim4_join_and_verse :
    (∀ l1 l2 l3 : List Char, l1 ≠ [] → l2 ≠ [] → l3 ≠ [] →
      (∀ c ∈ l1, c ≠ '\n') → (∀ c ∈ l2, c ≠ '\n') → (∀ c ∈ l3, c ≠ '\n') →
      startsWith fourSpaces l1 = false → startsWith fourSpaces l2 = false →
      startsWith fourSpaces l3 = false →
      noSentinel (l1 ++ '\n' :: (l2 ++ '\n' :: l3)) →
      preserve_poetry_linebreaks (l1 ++ '\n' :: (l2 ++ '\n' :: l3)) =
        l1 ++ ' ' :: (l2 ++ ' ' :: l3) ∧
      '\n' ∉ l1 ++ ' ' :: (l2 ++ ' ' :: l3)) ∧
    (∀ a b : List Char, a ≠ [] → (∀ c ∈ a, c ≠ '\n') →
      startsWith fourSpaces a = false →
      noSentinel (a ++ '\n' :: (fourSpaces ++ b)) →
      ∃ k, preserve_poetry_linebreaks (a ++ '\n' :: (fourSpaces ++ b)) =
        a ++ '\n' :: (fourSpaces ++ k)) := by
  constructor
  · intro l1 l2 l3 h1 h2 h3 n1 n2 n3 i1 i2 i3 hs
    constructor
    · rw [poetry_eq_poetryRef _ hs]
      unfold poetryRef
      rw [refAux_append_no_newline l1 n1 false ('\n' :: (l2 ++ '\n' :: l3))]
      rw [ite_self]
      have hsw2 : startsWith fourSpaces (l2 ++ '\n' :: l3) = false :=
        startsWith_spaces_append_nl fourSpaces l2 l3 (by decide) n2 i2
      have hk2 : keepNL (l2 ++ '\n' :: l3) = false :=
        keepNL_append_no_newline l2 ('\n' :: l3) h2 n2
      rw [refAux_cons, if_pos rfl,
        if_neg (by rw [hsw2]; exact Bool.false_ne_true),
        if_neg (by rw [hk2]; simp)]
      rw [refAux_append_no_newline l2 n2 true ('\n' :: l3)]
      have he2 : (if l2.isEmpty then (true : Bool) else false) = false := by
        cases l2 with
        | nil => exact absurd rfl h2
        | cons x xs => simp
      rw [he2]
      have hk3 : keepNL l3 = false := by
        have hh := keepNL_append_no_newline l3 [] h3 n3
        rwa [List.append_nil] at hh
      rw [refAux_cons, if_pos rfl, if_neg (by rw [i3]; exact Bool.false_ne_true),
        if_neg (by rw [hk3]; simp)]
      rw [refAux_no_newline l3 n3 true]
    · intro hmem
      rcases List.mem_append.mp hmem with hm | hm
      · exact n1 _ hm rfl
      · rcases List.mem_cons.mp hm with hm2 | hm2
        · exact absurd hm2 (by decide)
        · rcases List.mem_append.mp hm2 with hm3 | hm3
          · exact n2 _ hm3 rfl
          · rcases List.mem_cons.mp hm3 with hm4 | hm4
            · exact absurd hm4 (by decide)
            · exact n3 _ hm4 rfl
  · intro a b ha na ia hs
    refine ⟨refAux false b, ?_⟩
    rw [poetry_eq_poetryRef _ hs]
    unfold poetryRef
    rw [refAux_append_no_newline a na false ('\n' :: (fourSpaces ++ b))]
    rw [ite_self]
    have hswp : startsWith fourSpaces (fourSpaces ++ b) = true :=
      (startsWith_iff_append _ _).mpr ⟨b, rfl⟩
    rw [refAux_cons, if_pos rfl, if_pos hswp]
    rw [refAux_append_no_newline fourSpaces (by decide) false b]
    have he : (if fourSpaces.isEmpty then (false : Bool) else false) = false := by
      simp [fourSpaces]
    rw [he]

/-- Witness for C4: three concrete lines, and a concrete verse line. -/
theorem claim4_join_and_verse_witness :
    preserve_poetry_linebreaks "ab\ncd\nef".data = "ab cd ef".data ∧
    (∃ k, preserve_poetry_linebreaks "ab\n    cd".data =
      "ab".data ++ '\n' :: (fourSpaces ++ k)) := by
  constructor
  · exact ((claim4_join_and_verse.1 "ab".data "cd".data "ef".data
      (by decide) (by decide) (by decide) (by decide) (by decide) (by decide)
      (by decide) (by decide) (by decide) rfl).1)
  · exact claim4_join_and_verse.2 "ab".data "cd".data
      (by decide) (by decide) (by decide) rfl

/-- C10: the internal sentinel is not escaped in the content domain: the
input `"a<POETRY_LB>b"` contains no newline but contains the literal
sentinel, and the line-join transform replaces that occurrence with a
newline, so the transform is not the identity on newline-free inputs. -/
theorem claim10_sentinel_unescaped :
    ('\n' ∉ "a<POETRY_LB>b".data) ∧
    containsSub sentinelChars "a<POETRY_LB>b".data = true ∧
    preserve_poetry_linebreaks "a<POETRY_LB>b".data = "a\nb".data ∧
    preserve_poetry_linebreaks "a<POETRY_LB>b".data ≠ "a<POETRY_LB>b".data := by
  refine ⟨by decide, rfl, rfl, by decide⟩

theorem joinNL_cons_cons (l l2 : List Char) (ls : List (List Char)) :
    joinNL (l :: l2 :: ls) = l ++ '\n' :: joinNL (l2 :: ls) := rfl

theorem joinNL_singleton (l : List Char) : joinNL [l] = l := rfl

theorem slGo_cons (f : Nat) (c : Char) (s' : List Char) :
    slGo (f + 1) (c :: s') =
      if (c :: s').dropWhile (fun x => !isLineBoundary x) = [] then
        [(c :: s').takeWhile (fun x => !isLineBoundary x)]
      else if ((c :: s').dropWhile (fun x => !isLineBoundary x)).head? = some '\r' ∧
          ((c :: s').dropWhile (fun x => !isLineBoundary x)).tail.head? = some '\n' then
        ((c :: s').takeWhile (fun x => !isLineBoundary x)) ::
          slGo f (((c :: s').dropWhile (fun x => !isLineBoundary x)).tail.tail)
      else
        ((c :: s').takeWhile (fun x => !isLineBoundary x)) ::
          slGo f (((c :: s').dropWhile (fun x => !isLineBoundary x)).tail) := rfl

theorem slGo_congr : ∀ (f g : Nat) (s : List Char),
    s.length ≤ f → s.length ≤ g → slGo f s = slGo g s := by
  intro f
  induction f with
  | zero =>
    intro g s hf _
    have : s = [] := List.length_eq_zero.mp (Nat.le_zero.mp hf)
    subst this
    cases g <;> rfl
  | succ f ih =>
    intro g s hf hg
    cases g with
    | zero =>
      have : s = [] := List.length_eq_zero.mp (Nat.le_zero.mp hg)
      subst this; rfl
    | succ g =>
      cases s with
      | nil => rfl
      | cons c s' =>
        simp only [List.length_cons, Nat.add_le_add_iff_right] at hf hg
        rw [slGo_cons, slGo_cons]
        have hdlen : ((c :: s').dropWhile (fun x => !isLineBoundary x)).length ≤
            s'.length + 1 := by
          have h := (List.dropWhile_sublist (fun x => !isLineBoundary x)
            (l := c :: s')).length_le
          rwa [List.length_cons] at h
        by_cases h1 : (c :: s').dropWhile (fun x => !isLineBoundary x) = []
        · rw [if_pos h1, if_pos h1]
        · rw [if_neg h1, if_neg h1]
          by_cases h2 : ((c :: s').dropWhile (fun x => !isLineBoundary x)).head? =
              some '\r' ∧
              ((c :: s').dropWhile (fun x => !isLineBoundary x)).tail.head? = some '\n'
          · rw [if_pos h2, if_pos h2]
            have hlen : (((c :: s').dropWhile
                (fun x => !isLineBoundary x)).tail.tail).length ≤ s'.length := by
              rw [List.length_tail, List.length_tail]
              omega
            exact congrArg _ (ih g _ (le_trans hlen hf) (le_trans hlen hg))
          · rw [if_neg h2, if_neg h2]
            have hlen : (((c :: s').dropWhile
                (fun x => !isLineBoundary x)).tail).length ≤ s'.length := by
              rw [List.length_tail]
              omega
            exact congrArg _ (ih g _ (le_trans hlen hf) (le_trans hlen hg))

theorem dropWhile_head_false (p : Char → Bool) :
    ∀ (l : List Char) {d : Char} {dt : List Char},
      l.dropWhile p = d :: dt → p d = false := by
  intro l
  induction l with
  | nil =>
    intro d dt h
    simp [List.dropWhile] at h
  | cons c cs ih =>
    intro d dt h
    rw [List.dropWhile_cons] at h
    by_cases hc : p c = true
    · rw [if_pos hc] at h
      exact ih h
    · rw [if_neg hc] at h
      injection h with h1 _
      subst h1
      simpa using hc

theorem pySplitlines_take_extends :
    ∀ (f : Nat) (s : List Char), s.length ≤ f →
      (∀ c ∈ s, isLineBoundary c = true → c = '\n') →
      ∀ i, ∃ rest, s = joinNL ((pySplitlines s).take i) ++ rest := by
  intro f
  induction f with
  | zero =>
    intro s hs _ i
    have : s = [] := List.length_eq_zero.mp (Nat.le_zero.mp hs)
    subst this
    refine ⟨[], ?_⟩
    rw [show pySplitlines [] = [] from rfl, List.take_nil]
    rfl
  | succ f ih =>
    intro s hs honly i
    cases s with
    | nil =>
      refine ⟨[], ?_⟩
      rw [show pySplitlines [] = [] from rfl, List.take_nil]
      rfl
    | cons c s' =>
      rw [List.length_cons, Nat.add_le_add_iff_right] at hs
      cases hD : (c :: s').dropWhile (fun x => !isLineBoundary x) with
      | nil =>
        have hps : pySplitlines (c :: s') =
            [(c :: s').takeWhile (fun x => !isLineBoundary x)] := by
          unfold pySplitlines
          rw [List.length_cons, slGo_cons, if_pos hD]
        have hs_eq : (c :: s') = (c :: s').takeWhile (fun x => !isLineBoundary x) := by
          have h := List.takeWhile_append_dropWhile
            (p := fun x => !isLineBoundary x) (l := c :: s')
          rw [hD, List.append_nil] at h
          exact h.symm
        rw [hps]
        cases i with
        | zero => exact ⟨c :: s', rfl⟩
        | succ j =>
          refine ⟨[], ?_⟩
          rw [List.take_succ_cons, List.take_nil, joinNL_singleton, List.append_nil]
          exact hs_eq
      | cons d dt =>
        have hdval := dropWhile_head_false _ _ hD
        have hdmem : d ∈ (c :: s') := by
          refine (List.dropWhile_sublist (fun x => !isLineBoundary x)).subset ?_
          rw [hD]
          exact List.mem_cons_self d dt
        have hdnl : d = '\n' := honly d hdmem (by simpa using hdval)
        subst hdnl
        have hdtlen : dt.length ≤ s'.length := by
          have h := (List.dropWhile_sublist (fun x => !isLineBoundary x)
            (l := c :: s')).length_le
          rw [hD, List.length_cons, List.length_cons] at h
          omega
        have hps : pySplitlines (c :: s') =
            (c :: s').takeWhile (fun x => !isLineBoundary x) :: pySplitlines dt := by
          unfold pySplitlines
          rw [List.length_cons, slGo_cons, if_neg (by rw [hD]; simp),
            if_neg (by rw [hD]; simp), hD]
          simp only [List.tail_cons]
          rw [slGo_congr s'.length dt.length dt hdtlen le_rfl]
        have hsplit : (c :: s') =
            (c :: s').takeWhile (fun x => !isLineBoundary x) ++ '\n' :: dt := by
          have h := List.takeWhile_append_dropWhile
            (p := fun x => !isLineBoundary x) (l := c :: s')
          rw [hD] at h
          exact h.symm
        have honly' : ∀ x ∈ dt, isLineBoundary x = true → x = '\n' := by
          intro x hx
          refine honly x ?_
          refine (List.dropWhile_sublist (fun x => !isLineBoundary x)).subset ?_
          rw [hD]
          exact List.mem_cons_of_mem _ hx
        rw [hps]
        cases i with
        | zero => exact ⟨c :: s', rfl⟩
        | succ j =>
          rw [List.take_succ_cons]
          obtain ⟨r2, hr2⟩ := ih dt (le_trans hdtlen hs) honly' j
          cases hX : (pySplitlines dt).take j with
          | nil =>
            refine ⟨'\n' :: dt, ?_⟩
            rw [joinNL_singleton]
            exact hsplit
          | cons x xs =>
            rw [hX] at hr2
            refine ⟨r2, ?_⟩
            rw [joinNL_cons_cons]
            conv_lhs => rw [hsplit, hr2]
            simp [List.append_assoc]

/-- C5 counterexample: Python `str.splitlines` also splits at boundaries
other than the line feed — here a vertical tab — and `remove_footnotes`
rejoins the kept lines with `"\n"`.  On `"a\x0bb\nFOOTNOTES:"` the first
matching line is `FOOTNOTES:`, and the text strictly before it,
right-trimmed, is `"a\x0bb"`; but the code returns `"a\nb"`, the vertical
tab having been rewritten to a line feed by the join.  (The third
conjunct shows a line split at a vertical tab matching the footnote
marker at all, which the claim's newline-only reading of lines would
also miss.) -/
theorem claim5_counterexample :
    remove_footnotes "a\x0bb\nFOOTNOTES:".data = "a\nb".data ∧
    "a\nb".data ≠ "a\x0bb".data ∧
    remove_footnotes "x\x0bfootnotes: y".data = "x".data :=
  ⟨rfl, by decide, rfl⟩

/-- C5 (as amended): footnote-section truncation scans the Python lines
in order (line boundaries are the line feed, carriage return — with
carriage return + line feed as one boundary — vertical tab, form feed,
file/group/record separators, next line, line and paragraph separators);
if some line, after trimming and lowercasing, starts with `footnotes:`
or `[footnote `, the result is the newline-join of the lines strictly
before the first such line, right-trimmed; when every line-boundary
character of the text is a line feed, that join is exactly the text
strictly before the first such line (so the original wording holds for
such texts); if no such line exists, the result equals the input
unchanged. -/
theorem claim5_remove_footnotes (text : List Char) :
    ((pySplitlines text).findIdx? isFootnoteLine = none →
      remove_footnotes text = text) ∧
    (∀ i, (pySplitlines text).findIdx? isFootnoteLine = some i →
      remove_footnotes text = pyRstrip (joinNL ((pySplitlines text).take i)) ∧
      (∃ h : i < (pySplitlines text).length,
        isFootnoteLine ((pySplitlines text).get ⟨i, h⟩) = true ∧
        ∀ j (hj : j < i),
          isFootnoteLine ((pySplitlines text).get ⟨j, by omega⟩) = false) ∧
      ((∀ c ∈ text, isLineBoundary c = true → c = '\n') →
        ∃ rest, text = joinNL ((pySplitlines text).take i) ++ rest)) := by
  constructor
  · intro h
    simp [remove_footnotes, h]
  · intro i h
    obtain ⟨hlt, hp, hprev⟩ := List.findIdx?_eq_some_iff_getElem.mp h
    refine ⟨by simp [remove_footnotes, h], ⟨hlt, ?_, ?_⟩, ?_⟩
    · simpa using hp
    · intro j hj
      have := hprev j (by omega)
      simpa using this
    · intro honly
      exact pySplitlines_take_extends text.length text le_rfl honly i

/-- Witness for C5: a document with a `FOOTNOTES:` line at index 1
(discharging the newline-only-boundaries hypothesis as well) and a
document with no marker. -/
theorem claim5_remove_footnotes_witness :
    remove_footnotes "a\nFOOTNOTES:\nx".data =
      pyRstrip (joinNL ((pySplitlines "a\nFOOTNOTES:\nx".data).take 1)) ∧
    (∃ rest, "a\nFOOTNOTES:\nx".data =
      joinNL ((pySplitlines "a\nFOOTNOTES:\nx".data).take 1) ++ rest) ∧
    remove_footnotes "no marker\nhere".data = "no marker\nhere".data :=
  ⟨((claim5_remove_footnotes _).2 1 (by decide)).1,
   ((claim5_remove_footnotes _).2 1 (by decide)).2.2 (by decide),
   (claim5_remove_footnotes _).1 (by decide)⟩

theorem rbGo_cons (f : Nat) (c : Char) (rest : List Char) :
    rbGo (f + 1) (c :: rest) =
      if c = '[' ∧ (rest.takeWhile Char.isDigit) ≠ [] ∧
          (rest.dropWhile Char.isDigit).head? = some ']' then
        rbGo f ((rest.dropWhile Char.isDigit).tail)
      else c :: rbGo f rest := rfl

theorem plGo_cons (f : Nat) (c : Char) (rest : List Char) :
    plGo (f + 1) (c :: rest) =
      if startsWith plLit (c :: rest) = true ∧ (plTail (rest.drop 15)).isSome then
        plGo f ((plTail (rest.drop 15)).getD [])
      else c :: plGo f rest := rfl

theorem parenTail_cons (c : Char) (r2 : List Char) :
    parenTail (c :: r2) =
      if c = '(' ∧ (r2.takeWhile (fun x => x != ')')) ≠ [] ∧
          (r2.dropWhile (fun x => x != ')')) ≠ [] then
        some ((r2.dropWhile (fun x => x != ')')).tail)
      else none := rfl

theorem parenTail_length {x t : List Char} (h : parenTail x = some t) :
    t.length ≤ x.length := by
  cases x with
  | nil => exact absurd h (by simp [parenTail])
  | cons c r2 =>
    rw [parenTail_cons] at h
    by_cases hc : c = '(' ∧ (r2.takeWhile (fun x => x != ')')) ≠ [] ∧
        (r2.dropWhile (fun x => x != ')')) ≠ []
    · rw [if_pos hc, Option.some.injEq] at h
      subst h
      have h1 : (r2.dropWhile (fun x => x != ')')).length ≤ r2.length :=
        (List.dropWhile_sublist _).length_le
      rw [List.length_tail, List.length_cons]
      omega
    · rw [if_neg hc] at h
      exact absurd h (by simp)

theorem plTail_length {r rem : List Char} (h : plTail r = some rem) :
    rem.length ≤ r.length := by
  unfold plTail at h
  by_cases hc : r ≠ [] ∧ r.head? ≠ some '\n' ∧ r.tail.head? = some ' ' ∧
      (parenTail r.tail.tail).isSome
  · rw [if_pos hc] at h
    have h1 := parenTail_length h
    have h2 : r.tail.tail.length ≤ r.length := by
      rw [List.length_tail, List.length_tail]; omega
    omega
  · rw [if_neg hc] at h
    unfold plAlt2 at h
    by_cases hs : r.head? = some ' '
    · rw [if_pos hs] at h
      have h1 := parenTail_length h
      have h2 : r.tail.length ≤ r.length := by
        rw [List.length_tail]; omega
      omega
    · rw [if_neg hs] at h
      exact absurd h (by simp)

theorem rbGo_congr : ∀ (f g : Nat) (s : List Char),
    s.length ≤ f → s.length ≤ g → rbGo f s = rbGo g s := by
  intro f
  induction f with
  | zero =>
    intro g s hf _
    have : s = [] := List.length_eq_zero.mp (Nat.le_zero.mp hf)
    subst this
    cases g <;> rfl
  | succ f ih =>
    intro g s hf hg
    cases g with
    | zero =>
      have : s = [] := List.length_eq_zero.mp (Nat.le_zero.mp hg)
      subst this; rfl
    | succ g =>
      cases s with
      | nil => rfl
      | cons c rest =>
        simp only [List.length_cons, Nat.add_le_add_iff_right] at hf hg
        rw [rbGo_cons, rbGo_cons]
        by_cases h : c = '[' ∧ (rest.takeWhile Char.isDigit) ≠ [] ∧
            (rest.dropWhile Char.isDigit).head? = some ']'
        · rw [if_pos h, if_pos h]
          have hd : ((rest.dropWhile Char.isDigit).tail).length ≤ rest.length := by
            have h1 : (rest.dropWhile Char.isDigit).length ≤ rest.length :=
              (List.dropWhile_sublist _).length_le
            rw [List.length_tail]; omega
          exact ih g _ (le_trans hd hf) (le_trans hd hg)
        · rw [if_neg h, if_neg h]
          exact congrArg _ (ih g rest hf hg)

theorem plGo_congr : ∀ (f g : Nat) (s : List Char),
    s.length ≤ f → s.length ≤ g → plGo f s = plGo g s := by
  intro f
  induction f with
  | zero =>
    intro g s hf _
    have : s = [] := List.length_eq_zero.mp (Nat.le_zero.mp hf)
    subst this
    cases g <;> rfl
  | succ f ih =>
    intro g s hf hg
    cases g with
    | zero =>
      have : s = [] := List.length_eq_zero.mp (Nat.le_zero.mp hg)
      subst this; rfl
    | succ g =>
      cases s with
      | nil => rfl
      | cons c rest =>
        simp only [List.length_cons, Nat.add_le_add_iff_right] at hf hg
        rw [plGo_cons, plGo_cons]
        by_cases h : startsWith plLit (c :: rest) = true ∧
            (plTail (rest.drop 15)).isSome
        · rw [if_pos h, if_pos h]
          obtain ⟨rem, hrem⟩ := Option.isSome_iff_exists.mp h.2
          have hd : ((plTail (rest.drop 15)).getD []).length ≤ rest.length := by
            rw [hrem, Option.getD_some]
            have h1 := plTail_length hrem
            have h2 : (rest.drop 15).length ≤ rest.length := by
              rw [List.length_drop]; omega
            omega
          exact ih g _ (le_trans hd hf) (le_trans hd hg)
        · rw [if_neg h, if_neg h]
          exact congrArg _ (ih g rest hf hg)

theorem removeBrackets_nil : removeBrackets [] = [] := rfl

theorem removeBrackets_cons_pass {c : Char} (rest : List Char) (hc : c ≠ '[') :
    removeBrackets (c :: rest) = c :: removeBrackets rest := by
  unfold removeBrackets
  rw [List.length_cons, rbGo_cons, if_neg]
  intro h
  exact hc h.1

theorem takeWhile_append_stop {p : Char → Bool} :
    ∀ (a : List Char), (∀ c ∈ a, p c = true) → ∀ (x : Char), p x = false →
      ∀ (b : List Char),
        (a ++ x :: b).takeWhile p = a ∧ (a ++ x :: b).dropWhile p = x :: b := by
  intro a
  induction a with
  | nil =>
    intro _ x hx b
    constructor
    · rw [List.nil_append]
      simp [List.takeWhile_cons, hx]
    · rw [List.nil_append]
      simp [List.dropWhile_cons, hx]
  | cons y ys ih =>
    intro ha x hx b
    have hy : p y = true := ha y (List.mem_cons_self y ys)
    have ih' := ih (fun c hc => ha c (List.mem_cons_of_mem y hc)) x hx b
    constructor
    · rw [List.cons_append, List.takeWhile_cons, hy]
      simp [ih'.1]
    · rw [List.cons_append, List.dropWhile_cons, hy]
      simp [ih'.2]

theorem removeBrackets_marker_head (ds b : List Char) (hne : ds ≠ [])
    (hds : ∀ c ∈ ds, Char.isDigit c = true) :
    removeBrackets ('[' :: (ds ++ ']' :: b)) = removeBrackets b := by
  have hstop := takeWhile_append_stop ds hds ']' (by decide) b
  unfold removeBrackets
  rw [List.length_cons, rbGo_cons, if_pos]
  · rw [hstop.2]
    have hlen : b.length ≤ (ds ++ ']' :: b).length := by
      rw [List.length_append, List.length_cons]; omega
    exact rbGo_congr _ _ _ hlen le_rfl
  · refine ⟨rfl, ?_, ?_⟩
    · rw [hstop.1]; exact hne
    · rw [hstop.2]; rfl

theorem removeBrackets_append_pass :
    ∀ (a : List Char), (∀ c ∈ a, c ≠ '[') → ∀ (x : List Char),
      removeBrackets (a ++ x) = a ++ removeBrackets x := by
  intro a
  induction a with
  | nil => intro _ x; rfl
  | cons y ys ih =>
    intro ha x
    rw [List.cons_append,
      removeBrackets_cons_pass _ (ha y (List.mem_cons_self y ys)),
      ih (fun c hc => ha c (List.mem_cons_of_mem y hc)) x, List.cons_append]

theorem removeBrackets_id (s : List Char) (hs : ∀ c ∈ s, c ≠ '[') :
    removeBrackets s = s := by
  have h := removeBrackets_append_pass s hs []
  rwa [List.append_nil, removeBrackets_nil, List.append_nil] at h

theorem removePlutarch_nil : removePlutarch [] = [] := rfl

theorem startsWith_plLit_false {c : Char} (r : List Char) (hc : c ≠ 'P') :
    startsWith plLit (c :: r) = false := by
  show startsWith ('P' :: "LUTARCH\x27S LIVES".data) (c :: r) = false
  rw [startsWith_cons, beq_eq_false_iff_ne.mpr (Ne.symm hc), Bool.false_and]

theorem removePlutarch_cons_pass {c : Char} (rest : List Char)
    (h : ¬(startsWith plLit (c :: rest) = true ∧ (plTail (rest.drop 15)).isSome)) :
    removePlutarch (c :: rest) = c :: removePlutarch rest := by
  unfold removePlutarch
  rw [List.length_cons, plGo_cons, if_neg h]

theorem removePlutarch_cons_ne {c : Char} (rest : List Char) (hc : c ≠ 'P') :
    removePlutarch (c :: rest) = c :: removePlutarch rest :=
  removePlutarch_cons_pass rest (fun h => by
    rw [startsWith_plLit_false rest hc] at h
    exact Bool.false_ne_true h.1)

theorem startsWith_append_self (p t : List Char) : startsWith p (p ++ t) = true :=
  (startsWith_iff_append _ _).mpr ⟨t, rfl⟩

theorem removePlutarch_match {t rem : List Char} (h : plTail t = some rem) :
    removePlutarch (plLit ++ t) = removePlutarch rem := by
  unfold removePlutarch
  have hshape : plLit ++ t = 'P' :: ("LUTARCH\x27S LIVES".data ++ t) := rfl
  rw [hshape, List.length_cons, plGo_cons]
  have hdrop : ("LUTARCH\x27S LIVES".data ++ t).drop 15 = t := by
    show (['L','U','T','A','R','C','H','\x27','S',' ','L','I','V','E','S'] ++ t).drop 15 = t
    simp
  rw [hdrop, h]
  rw [if_pos ⟨startsWith_append_self plLit t, rfl⟩, Option.getD_some]
  have h1 := plTail_length h
  have h2 : rem.length ≤ ("LUTARCH\x27S LIVES".data ++ t).length := by
    rw [List.length_append]
    have : t.length ≤ t.length + "LUTARCH\x27S LIVES".data.length := by omega
    omega
  exact plGo_congr _ _ rem h2 le_rfl

theorem parenTail_inner (inner b : List Char) (hne : inner ≠ [])
    (hinner : ∀ x ∈ inner, x ≠ ')') :
    parenTail ('(' :: (inner ++ ')' :: b)) = some b := by
  have hstop := takeWhile_append_stop (p := fun x => x != ')') inner
    (fun c hc => bne_iff_ne.mpr (hinner c hc)) ')' (by decide) b
  rw [parenTail_cons,
    if_pos ⟨rfl, by rw [hstop.1]; exact hne, by rw [hstop.2]; simp⟩, hstop.2]
  rfl

theorem plTail_alt1 {c : Char} (inner b : List Char) (hc : c ≠ '\n')
    (hne : inner ≠ []) (hinner : ∀ x ∈ inner, x ≠ ')') :
    plTail (c :: ' ' :: ('(' :: (inner ++ ')' :: b))) = some b := by
  have hp := parenTail_inner inner b hne hinner
  unfold plTail
  rw [if_pos]
  · exact hp
  · refine ⟨by simp, by simp [hc], rfl, ?_⟩
    show (parenTail ('(' :: (inner ++ ')' :: b))).isSome = true
    rw [hp]
    rfl

theorem plTail_alt2 (inner b : List Char) (hne : inner ≠ [])
    (hinner : ∀ x ∈ inner, x ≠ ')') :
    plTail (' ' :: ('(' :: (inner ++ ')' :: b))) = some b := by
  have hp := parenTail_inner inner b hne hinner
  unfold plTail
  rw [if_neg]
  · unfold plAlt2
    have hh : (' ' :: ('(' :: (inner ++ ')' :: b))).head? = some ' ' := rfl
    rw [if_pos hh]
    exact hp
  · intro hcon
    have h2 := hcon.2.2.1
    simp at h2

theorem removePlutarch_append_pass :
    ∀ (a : List Char), (∀ c ∈ a, c ≠ 'P') → ∀ (x : List Char),
      removePlutarch (a ++ x) = a ++ removePlutarch x := by
  intro a
  induction a with
  | nil => intro _ x; rfl
  | cons y ys ih =>
    intro ha x
    rw [List.cons_append,
      removePlutarch_cons_ne _ (ha y (List.mem_cons_self y ys)),
      ih (fun c hc => ha c (List.mem_cons_of_mem y hc)) x, List.cons_append]

theorem removePlutarch_id (s : List Char) (hs : ∀ c ∈ s, c ≠ 'P') :
    removePlutarch s = s := by
  have h := removePlutarch_append_pass s hs []
  rwa [List.append_nil, removePlutarch_nil, List.append_nil] at h

/-- C6 counterexample: the claim allows only a single punctuation
character between `PLUTARCH'S LIVES` and the parenthesized suffix, and
says all other characters are left unchanged; but the regex `.?` matches
any non-newline character, so on `"PLUTARCH'S LIVESX (a) b"` — where `X`
is a letter, not punctuation, so per the claim nothing should match — the
code removes the whole pattern and returns `" b"`. -/
theorem claim6_counterexample :
    remove_unwanted_text "PLUTARCH\x27S LIVESX (a) b".data = " b".data ∧
    " b".data ≠ "PLUTARCH\x27S LIVESX (a) b".data :=
  ⟨rfl, by decide⟩

/-- C6 (as amended): inline unwanted-pattern removal removes every
bracketed integer citation marker `[<digits>]`, and every occurrence of
`PLUTARCH'S LIVES` optionally followed by a single non-newline character
(not merely a punctuation character), then a space, up through and
including a parenthesized suffix, leaving all other characters
unchanged; in particular `"...see [12] and [345]..."` yields
`"...see  and ..."`. -/
theorem claim6_remove_unwanted :
    remove_unwanted_text "...see [12] and [345]...".data = "...see  and ...".data ∧
    (∀ a ds b : List Char, (∀ c ∈ a, c ≠ '[') → ds ≠ [] →
      (∀ c ∈ ds, Char.isDigit c = true) →
      removeBrackets (a ++ '[' :: (ds ++ ']' :: b)) = a ++ removeBrackets b) ∧
    (∀ (a inner b : List Char) (c : Char), (∀ x ∈ a, x ≠ 'P') → c ≠ '\n' →
      inner ≠ [] → (∀ x ∈ inner, x ≠ ')') →
      removePlutarch (a ++ (plLit ++ (c :: ' ' :: ('(' :: (inner ++ ')' :: b))))) =
        a ++ removePlutarch b) ∧
    (∀ (a inner b : List Char), (∀ x ∈ a, x ≠ 'P') →
      inner ≠ [] → (∀ x ∈ inner, x ≠ ')') →
      removePlutarch (a ++ (plLit ++ (' ' :: ('(' :: (inner ++ ')' :: b))))) =
        a ++ removePlutarch b) ∧
    (∀ s : List Char, (∀ c ∈ s, c ≠ '[' ∧ c ≠ 'P') →
      remove_unwanted_text s = s) := by
  refine ⟨rfl, ?_, ?_, ?_, ?_⟩
  · intro a ds b ha hne hds
    rw [removeBrackets_append_pass a ha, removeBrackets_marker_head ds b hne hds]
  · intro a inner b c ha hc hne hinner
    rw [removePlutarch_append_pass a ha,
      removePlutarch_match (plTail_alt1 inner b hc hne hinner)]
  · intro a inner b ha hne hinner
    rw [removePlutarch_append_pass a ha,
      removePlutarch_match (plTail_alt2 inner b hne hinner)]
  · intro s hs
    unfold remove_unwanted_text
    rw [removeBrackets_id s (fun c hc => (hs c hc).1),
      removePlutarch_id s (fun c hc => (hs c hc).2)]

/-- Witness for C6 at concrete instances of each conjunct. -/
theorem claim6_remove_unwanted_witness :
    removeBrackets ("x".data ++ '[' :: ("7".data ++ ']' :: "y".data)) =
      "x".data ++ removeBrackets "y".data ∧
    removePlutarch ("QR".data ++
        (plLit ++ (':' :: ' ' :: ('(' :: ("v".data ++ ')' :: "w".data))))) =
      "QR".data ++ removePlutarch "w".data ∧
    removePlutarch ("Q".data ++
        (plLit ++ (' ' :: ('(' :: ("v".data ++ ')' :: "w".data))))) =
      "Q".data ++ removePlutarch "w".data ∧
    remove_unwanted_text "hello".data = "hello".data :=
  ⟨claim6_remove_unwanted.2.1 "x".data "7".data "y".data
      (by decide) (by decide) (by decide),
   claim6_remove_unwanted.2.2.1 "QR".data "v".data "w".data ':'
      (by decide) (by decide) (by decide) (by decide),
   claim6_remove_unwanted.2.2.2.1 "Q".data "v".data "w".data
      (by decide) (by decide) (by decide),
   claim6_remove_unwanted.2.2.2.2 "hello".data (by decide)⟩

theorem isHeaderLine_iff (l : List Char) : isHeaderLine l = true ↔ headerLineSpec l := by
  unfold isHeaderLine headerLineSpec
  rw [Bool.or_eq_true, Bool.and_eq_true, Bool.and_eq_true]
  constructor
  · rintro (⟨⟨hsw, hne⟩, hall⟩ | hsw)
    · obtain ⟨t, rfl⟩ := (startsWith_iff_append _ _).mp hsw
      have hdrop : ("LIFE OF ".data ++ t).drop 8 = t := by
        show (['L', 'I', 'F', 'E', ' ', 'O', 'F', ' '] ++ t).drop 8 = t
        simp
      rw [hdrop] at hne hall
      refine Or.inl ⟨t, rfl, ?_, ?_⟩
      · intro ht
        subst ht
        simp at hne
      · intro c hc
        have hcc := List.all_eq_true.mp hall c hc
        simp only [upperSpaceDot, Bool.or_eq_true, Bool.and_eq_true,
          decide_eq_true_eq, beq_iff_eq] at hcc
        tauto
    · exact Or.inr ((startsWith_iff_append _ _).mp hsw)
  · rintro (⟨t, rfl, htne, hall⟩ | ⟨t, rfl⟩)
    · have hdrop : ("LIFE OF ".data ++ t).drop 8 = t := by
        show (['L', 'I', 'F', 'E', ' ', 'O', 'F', ' '] ++ t).drop 8 = t
        simp
      refine Or.inl ⟨⟨startsWith_append_self _ _, ?_⟩, ?_⟩
      · rw [hdrop]
        simpa using htne
      · rw [hdrop, List.all_eq_true]
        intro c hc
        have hcc := hall c hc
        simp only [upperSpaceDot, Bool.or_eq_true, Bool.and_eq_true,
          decide_eq_true_eq, beq_iff_eq]
        tauto
    · exact Or.inr (startsWith_append_self _ _)

theorem headerPositions_mem_iff (text : List Char) (p : Nat) :
    p ∈ headerPositions text ↔
      p < text.length ∧ isLineStart text p = true ∧ headerLineSpec (lineAt text p) := by
  unfold headerPositions
  rw [List.mem_filter, List.mem_range]
  constructor
  · rintro ⟨h1, h2⟩
    rw [Bool.and_eq_true] at h2
    exact ⟨h1, h2.1, (isHeaderLine_iff _).mp h2.2⟩
  · rintro ⟨h1, h2, h3⟩
    refine ⟨h1, ?_⟩
    rw [Bool.and_eq_true]
    exact ⟨h2, (isHeaderLine_iff _).mpr h3⟩

theorem headerPositions_pairwise (text : List Char) :
    (headerPositions text).Pairwise (fun a b => a < b) :=
  List.Pairwise.filter _ (List.pairwise_lt_range _)

theorem headerPositions_lt_length {text : List Char} {p : Nat}
    (h : p ∈ headerPositions text) : p < text.length :=
  ((headerPositions_mem_iff text p).mp h).1

theorem sectionSpans_length (text : List Char) :
    (sectionSpans text).length = (headerPositions text).length := by
  unfold sectionSpans
  rw [List.length_zip]
  simp only [List.length_append, List.length_drop, List.length_singleton]
  omega

theorem sectionSpans_get (text : List Char) (i : Nat)
    (h : i < (headerPositions text).length) :
    (sectionSpans text).get ⟨i, by rw [sectionSpans_length]; exact h⟩ =
      ((headerPositions text).get ⟨i, h⟩,
        if h2 : i + 1 < (headerPositions text).length then
          (headerPositions text).get ⟨i + 1, h2⟩
        else text.length) := by
  unfold sectionSpans
  simp only [List.get_eq_getElem]
  rw [List.getElem_zip]
  refine congrArg₂ Prod.mk rfl ?_
  by_cases h2 : i + 1 < (headerPositions text).length
  · rw [dif_pos h2]
    have hlt : i < ((headerPositions text).drop 1).length := by
      rw [List.length_drop]; omega
    rw [List.getElem_append_left hlt, List.getElem_drop]
    congr 1
    omega
  · rw [dif_neg h2]
    have hge : ((headerPositions text).drop 1).length ≤ i := by
      rw [List.length_drop]; omega
    rw [List.getElem_append_right hge]
    have hz : i - ((headerPositions text).drop 1).length = 0 := by
      rw [List.length_drop]; omega
    simp [hz]

/-- C1: section discovery finds exactly the full lines that either
consist solely of `LIFE OF ` followed by a nonempty run of uppercase
letters, spaces, or periods, or start with `COMPARISON OF`; a document
with `N` header matches produces exactly `N` sections, each spanning
from its header's start offset to the next header's start offset, or to
the text length for the last section; the sections are nonempty,
ordered by source position, and non-overlapping (text before the first
header is in no section). -/
theorem claim1_section_discovery (text : List Char) :
    (∀ p, p ∈ headerPositions text ↔
      p < text.length ∧ isLineStart text p = true ∧ headerLineSpec (lineAt text p)) ∧
    (sectionSpans text).length = (headerPositions text).length ∧
    (∀ i (h : i < (headerPositions text).length),
      (sectionSpans text).get ⟨i, by rw [sectionSpans_length]; exact h⟩ =
        ((headerPositions text).get ⟨i, h⟩,
          if h2 : i + 1 < (headerPositions text).length then
            (headerPositions text).get ⟨i + 1, h2⟩
          else text.length)) ∧
    (∀ i (h : i < (sectionSpans text).length),
      ((sectionSpans text).get ⟨i, h⟩).1 < ((sectionSpans text).get ⟨i, h⟩).2) ∧
    (∀ i j (hi : i < (sectionSpans text).length) (hj : j < (sectionSpans text).length),
      i < j →
      ((sectionSpans text).get ⟨i, hi⟩).2 ≤ ((sectionSpans text).get ⟨j, hj⟩).1) := by
  have hmono := List.pairwise_iff_getElem.mp (headerPositions_pairwise text)
  refine ⟨headerPositions_mem_iff text, sectionSpans_length text, ?_, ?_, ?_⟩
  · intro i h
    exact sectionSpans_get text i h
  · intro i h
    have h' : i < (headerPositions text).length := by
      rw [← sectionSpans_length]; exact h
    rw [sectionSpans_get text i h']
    by_cases h2 : i + 1 < (headerPositions text).length
    · rw [dif_pos h2]
      exact hmono i (i + 1) h' h2 (by omega)
    · rw [dif_neg h2]
      exact headerPositions_lt_length
        (List.get_mem (headerPositions text) i h')
  · intro i j hi hj hij
    have hi' : i < (headerPositions text).length := by
      rw [← sectionSpans_length]; exact hi
    have hj' : j < (headerPositions text).length := by
      rw [← sectionSpans_length]; exact hj
    rw [sectionSpans_get text i hi', sectionSpans_get text j hj']
    by_cases h2 : i + 1 < (headerPositions text).length
    · rw [dif_pos h2]
      by_cases hij2 : i + 1 < j
      · exact le_of_lt (hmono (i + 1) j h2 hj' hij2)
      · have : i + 1 = j := by omega
        subst this
        simp only [List.get_eq_getElem]
        exact le_rfl
    · omega

/-- Witness for C1 at a concrete two-header document. -/
theorem claim1_section_discovery_witness :
    (7 ∈ headerPositions "Intro.\nLIFE OF X\nbody\nCOMPARISON OF Y\ntail".data ↔
      7 < "Intro.\nLIFE OF X\nbody\nCOMPARISON OF Y\ntail".data.length ∧
      isLineStart "Intro.\nLIFE OF X\nbody\nCOMPARISON OF Y\ntail".data 7 = true ∧
      headerLineSpec (lineAt "Intro.\nLIFE OF X\nbody\nCOMPARISON OF Y\ntail".data 7)) ∧
    (sectionSpans "Intro.\nLIFE OF X\nbody\nCOMPARISON OF Y\ntail".data).length =
      (headerPositions "Intro.\nLIFE OF X\nbody\nCOMPARISON OF Y\ntail".data).length := by
  have h := claim1_section_discovery "Intro.\nLIFE OF X\nbody\nCOMPARISON OF Y\ntail".data
  exact ⟨h.1 7, h.2.1⟩

theorem outputNames_length (stem text : List Char) :
    (outputNames stem text).length = (headerPositions text).length := by
  unfold outputNames
  rw [List.length_map, List.enum_length, sectionSpans_length]

theorem outputNames_get (stem text : List Char) (i : Nat)
    (h : i < (headerPositions text).length) :
    (outputNames stem text).get ⟨i, by rw [outputNames_length]; exact h⟩ =
      sectionName stem text i ((headerPositions text).get ⟨i, h⟩) := by
  unfold outputNames
  simp only [List.get_eq_getElem, List.getElem_map, List.getElem_enum]
  have hsp := sectionSpans_get text i h
  simp only [List.get_eq_getElem] at hsp
  rw [hsp]

/-- C2: for every section, the cleanup applied is exactly the
composition, in this order: the extracted section slice is stripped of
leading and trailing whitespace, then the poetry-preserving line join,
then footnote-section truncation, then inline unwanted-pattern removal —
and nothing else. -/
theorem claim2_pipeline_order (stem text : List Char) :
    (processText stem text).map Prod.snd =
      (sectionSpans text).map (fun sp =>
        remove_unwanted_text (remove_footnotes (preserve_poetry_linebreaks
          (pyStrip ((text.drop sp.1).take (sp.2 - sp.1)))))) := by
  unfold processText
  rw [List.map_map]
  have h1 : (Prod.snd ∘ fun p : Nat × (Nat × Nat) =>
      (sectionName stem text p.1 p.2.1, cleanSection text p.2)) =
      (cleanSection text ∘ Prod.snd) := by
    funext p
    rfl
  rw [h1, ← List.map_map, List.enum_map_snd]
  unfold cleanSection
  rfl

/-- C7: the output filename of the `i`-th section is the source stem,
the 1-based index zero-padded to two digits, and the slug of the header
line (spaces to underscores, periods removed), joined with underscores
and suffixed `.txt`; on a `plutarch` document with headers
`LIFE OF CAESAR` then `LIFE OF BRUTUS`, exactly the two files
`plutarch_01_LIFE_OF_CAESAR.txt` and `plutarch_02_LIFE_OF_BRUTUS.txt`
are produced. -/
theorem claim7_output_names :
    (∀ stem text, (processText stem text).map Prod.fst = outputNames stem text) ∧
    (∀ stem text i (h : i < (headerPositions text).length),
      (outputNames stem text).get ⟨i, by rw [outputNames_length]; exact h⟩ =
        stem ++ '_' :: (pad2 (i + 1) ++ '_' ::
          (slugTitle (lineAt text ((headerPositions text).get ⟨i, h⟩)) ++
            ".txt".data))) ∧
    outputNames "plutarch".data
        "Preface.\nLIFE OF CAESAR\nCaesar text.\nLIFE OF BRUTUS\nBrutus text.".data =
      ["plutarch_01_LIFE_OF_CAESAR.txt".data, "plutarch_02_LIFE_OF_BRUTUS.txt".data] := by
  refine ⟨?_, ?_, ?_⟩
  · intro stem text
    unfold processText outputNames
    rw [List.map_map]
    rfl
  · intro stem text i h
    rw [outputNames_get stem text i h]
    rfl
  · decide

/-- Witness for C7 at a concrete index of the concrete document. -/
theorem claim7_output_names_witness :
    (outputNames "plutarch".data "x\nLIFE OF NUMA\ny".data).get ⟨0, by decide⟩ =
      "plutarch".data ++ '_' :: (pad2 1 ++ '_' ::
        (slugTitle (lineAt "x\nLIFE OF NUMA\ny".data
          ((headerPositions "x\nLIFE OF NUMA\ny".data).get ⟨0, by decide⟩)) ++
          ".txt".data)) :=
  claim7_output_names.2.1 "plutarch".data "x\nLIFE OF NUMA\ny".data 0 (by decide)

/-- C8: a document in which zero header lines match produces zero output
files; processing is total, so no error is raised and all content of
such a document is dropped. -/
theorem claim8_zero_headers (stem text : List Char)
    (h : headerPositions text = []) : processText stem text = [] := by
  unfold processText sectionSpans
  rw [h]
  rfl

/-- Witness for C8 at a concrete header-free document. -/
theorem claim8_zero_headers_witness :
    headerPositions "Just prose.\nNothing here.".data = [] ∧
    processText "doc".data "Just prose.\nNothing here.".data = [] :=
  ⟨by decide, claim8_zero_headers _ _ (by decide)⟩

end Plutarch
